import Mathlib

/-!
Verification development for the acorn storage core: a shallow embedding of
the page cache, the XOR-diff transaction layer, the before/after recovery
manager and the segment freelist allocator, with theorems checking the
spec's claims against the embedded code.

Bytes are modelled as `Nat` (values below 256; XOR of two bytes stays a
byte), pages as `List Nat`, and page identifiers as pairs of segment and
page number.
-/

set_option maxHeartbeats 1000000
set_option maxRecDepth 8192

abbrev PageId := Nat × Nat

abbrev PageState := PageId → List Nat

/-- One step of the loop body of `Transaction::generate_diff`
(src/acorn/src/manage/transaction.rs): state is
(reversed mutated prefix, start_index, end_index, has_started, index). -/
def generate_diff_step (acc : List Nat × Nat × Nat × Bool × Nat)
    (bc : Nat × Nat) : List Nat × Nat × Nat × Bool × Nat :=
  let (mutRev, startIdx, endIdx, hasStarted, i) := acc
  let (byte, change) := bc
  if byte = change then
    if !hasStarted then (byte :: mutRev, i, i + 1, hasStarted, i + 1)
    else (byte :: mutRev, startIdx, endIdx, hasStarted, i + 1)
  else
    (Nat.xor byte change :: mutRev, startIdx, i + 1, true, i + 1)

/-- `Transaction::generate_diff(buf, new)` from
src/acorn/src/manage/transaction.rs: walks `buf.iter_mut().zip(new)`,
XOR-mutating differing bytes in place and tracking `start_index` and
`end_index`; returns `(start_index, buf[start_index..end_index])`. -/
def generate_diff (buf new : List Nat) : Nat × List Nat :=
  let z := buf.zip new
  let (mutRev, startIdx, endIdx, _, _) :=
    z.foldl generate_diff_step ([], 0, 0, false, 0)
  let mutated := mutRev.reverse ++ buf.drop z.length
  (startIdx, (mutated.drop startIdx).take (endIdx - startIdx))

/-- The diff application loop of `TransactionManager::recover_from_wal`
(src/acorn/src/manage/transaction.rs): for each byte of the diff, XOR it
into the page starting at `diff_start`; diff bytes beyond the page end are
dropped by the zip. -/
def apply_diff (page : List Nat) (diff_start : Nat) (diff : List Nat) :
    List Nat :=
  page.take diff_start ++
    ((page.drop diff_start).zipWith Nat.xor diff) ++
    (page.drop diff_start).drop diff.length

/-- A record append to the WAL as performed by the transaction layer in
src/acorn/src/manage/transaction.rs: `push_write` receives the tid, the
fresh seq, the page id, the diff start and the single XOR diff slice;
`push_commit` and `push_cancel` receive tid and seq. -/
inductive PushEvent where
  | write (tid seq : Nat) (page_id : PageId) (diff_start : Nat)
      (diff : List Nat)
  | commit (tid seq : Nat)
  | cancel (tid seq : Nat)
  deriving DecidableEq

/-- A WAL item as yielded by iteration, after the fields exposed by
`wal::Item` in src/acorn/src/manage/transaction.rs (`Write { tid, page_id,
diff_start, diff }`, `Commit(tid)`, `Cancel(tid)`): no seq and a single
diff payload. -/
inductive WalItem where
  | write (tid : Nat) (page_id : PageId) (diff_start : Nat)
      (diff : List Nat)
  | commit (tid : Nat)
  | cancel (tid : Nat)
  deriving DecidableEq

/-- Reading a pushed record back through iteration drops the seq and keeps
tid, page id, diff start and the one diff payload, as in the
`simple_transaction` test of src/acorn/src/manage/transaction.rs. -/
def PushEvent.toWalItem : PushEvent → WalItem
  | .write tid _ page_id diff_start diff => .write tid page_id diff_start diff
  | .commit tid _ => .commit tid
  | .cancel tid _ => .cancel tid

/-- The byte arrays stored inside one WAL record: a Write record carries
exactly one byte payload (its XOR diff); Commit and Cancel carry none. -/
def PushEvent.storedArrays : PushEvent → List (List Nat)
  | .write _ _ _ _ diff => [diff]
  | _ => []

/-- State shared by `TransactionManager`, its WAL and the page cache as
used by `Transaction` (src/acorn/src/manage/transaction.rs): the seq
counter, the records pushed to the WAL, how many of them have been
flushed, the cached page bytes, and the set of pages on which the
transaction holds a write guard (a held guard aliases the cache frame, so
reads and writes through it are reads and writes of the cached bytes). -/
structure TxnState where
  seq_counter : Nat
  wal_pushed : List PushEvent
  wal_flushed : Nat
  cache : PageState
  locks : List PageId

/-- `Transaction::read`: through the held guard when the page is locked by
this transaction, otherwise through the cache; both alias the same frame
bytes in the embedding. -/
def Transaction.read (st : TxnState) (page_id : PageId) : List Nat :=
  if st.locks.contains page_id then st.cache page_id else st.cache page_id

/-- `Transaction::track_write`: take the next seq under the state mutex
and push a (buffered, unflushed) Write record. -/
def Transaction.track_write (tid : Nat) (st : TxnState) (page_id : PageId)
    (diff_start : Nat) (diff : List Nat) : TxnState :=
  { st with
    seq_counter := st.seq_counter + 1
    wal_pushed := st.wal_pushed ++
      [PushEvent.write tid (st.seq_counter + 1) page_id diff_start diff] }

/-- `Transaction::write`: read the current bytes, generate the XOR diff,
track the Write record, acquire (or reuse) the page's write guard, and
copy `data` over the first `data.len()` bytes of the frame. -/
def Transaction.write (tid : Nat) (st : TxnState) (page_id : PageId)
    (data : List Nat) : TxnState :=
  let page := Transaction.read st page_id
  let sd := generate_diff page data
  let st1 := Transaction.track_write tid st page_id sd.1 sd.2
  let st2 := { st1 with
    locks := if st1.locks.contains page_id then st1.locks
      else st1.locks ++ [page_id] }
  { st2 with
    cache := fun p =>
      if p = page_id then data ++ (st2.cache page_id).drop data.length
      else st2.cache p }

/-- `Transaction::track_commit`: push a Commit record with the next seq,
then flush the WAL. -/
def Transaction.track_commit (tid : Nat) (st : TxnState) : TxnState :=
  let st1 := { st with
    seq_counter := st.seq_counter + 1
    wal_pushed := st.wal_pushed ++ [PushEvent.commit tid (st.seq_counter + 1)] }
  { st1 with wal_flushed := st1.wal_pushed.length }

/-- `Transaction::commit` delegates to `track_commit`. -/
def Transaction.commit (tid : Nat) (st : TxnState) : TxnState :=
  Transaction.track_commit tid st

/-- `Transaction::track_cancel`: push a Cancel record with the next seq;
unlike `track_commit` it does not flush the WAL. -/
def Transaction.track_cancel (tid : Nat) (st : TxnState) : TxnState :=
  { st with
    seq_counter := st.seq_counter + 1
    wal_pushed := st.wal_pushed ++ [PushEvent.cancel tid (st.seq_counter + 1)] }

/-- How a transaction method returns control to the caller. -/
inductive TxnOutcome where
  | normal
  | panicked
  deriving DecidableEq

/-- `Transaction::cancel` (src/acorn/src/manage/transaction.rs): calls
`track_cancel` and then hits `todo!("This needs to rollback the changes
written to the PageCache")`, i.e. it panics without flushing the WAL and
without touching any cached page. -/
def Transaction.cancel (tid : Nat) (st : TxnState) :
    TxnState × TxnOutcome :=
  (Transaction.track_cancel tid st, .panicked)

/-- The records visible to a reader that reopens the WAL: the flushed
prefix of the pushed records, iterated as `wal::Item`s. -/
def iterItems (st : TxnState) : List WalItem :=
  (st.wal_pushed.take st.wal_flushed).map PushEvent.toWalItem

/-- All byte arrays stored in the flushed records of the WAL. -/
def walStoredArrays (st : TxnState) : List (List Nat) :=
  ((st.wal_pushed.take st.wal_flushed).map PushEvent.storedArrays).flatten

/-- C1. The spec claims the XOR round-trip: applying the diff produced by
`generate_diff(old, new)` to `old` (with the recovery XOR semantics) yields
`new`. The code violates this: on `old = [1, 2]`, `new = [1, 3]` the
returned `start_index` is 0 (it points at the last equal byte before the
first difference) and the emitted diff is `[1, 1]`, so application yields
`[0, 3]`, not `[1, 3]`. -/
theorem c1_generate_diff_roundtrip_fails :
    generate_diff [1, 2] [1, 3] = (0, [1, 1]) ∧
    apply_diff [1, 2] (generate_diff [1, 2] [1, 3]).1
        (generate_diff [1, 2] [1, 3]).2 = [0, 3] ∧
    apply_diff [1, 2] (generate_diff [1, 2] [1, 3]).1
        (generate_diff [1, 2] [1, 3]).2 ≠ [1, 3] := by
  refine ⟨by decide, by decide, by decide⟩

/-- A transaction state in which transaction 0 has written `[9, 9]` over
the zeroed page `(0, 1)`: one buffered Write record, nothing flushed, the
frame bytes updated through the held guard. -/
def c3Active : TxnState :=
  Transaction.write 0
    { seq_counter := 0, wal_pushed := [], wal_flushed := 0,
      cache := fun _ => [0, 0], locks := [] }
    (0, 1) [9, 9]

/-- C3. The claim says `Transaction::cancel()` appends a Cancel record,
flushes the WAL, rolls back the written pages and returns normally. On the
active transaction `c3Active` the code appends the Cancel record but never
flushes (`wal_flushed` stays 0), leaves the page bytes at `[9, 9]` instead
of rolling them back to `[0, 0]`, and panics at its `todo!` instead of
returning normally. -/
theorem c3_cancel_unflushed_no_rollback_panics :
    (Transaction.cancel 0 c3Active).2 = .panicked ∧
    (Transaction.cancel 0 c3Active).1.wal_pushed =
      [.write 0 1 (0, 1) 0 [9, 9], .cancel 0 2] ∧
    (Transaction.cancel 0 c3Active).1.wal_flushed = 0 ∧
    (Transaction.cancel 0 c3Active).1.cache (0, 1) = [9, 9] := by
  refine ⟨by decide, by decide, by decide, by decide⟩

/-- The WAL scenario of the claim: on a fresh database with all pages
zeroed (page size 512), transaction 0 writes `[25; 512]` to page `(0, 1)`,
writes `[69; 512]` to page `(0, 2)`, and commits. -/
def c4Final : TxnState :=
  Transaction.commit 0
    (Transaction.write 0
      (Transaction.write 0
        { seq_counter := 0, wal_pushed := [], wal_flushed := 0,
          cache := fun _ => List.replicate 512 0, locks := [] }
        (0, 1) (List.replicate 512 25))
      (0, 2) (List.replicate 512 69))

/-- C4 counterexample. The claim says each Write record carries both the
before image (`[0; 512]`) and the after image. The records actually
written carry a single XOR diff each: the only byte arrays stored in the
WAL are `[25; 512]` and `[69; 512]`, and the before image `[0; 512]` is
stored nowhere. -/
theorem c4_no_before_image_stored :
    walStoredArrays c4Final =
      [List.replicate 512 25, List.replicate 512 69] ∧
    List.replicate 512 0 ∉ walStoredArrays c4Final := by
  refine ⟨by decide, by decide⟩

/-- C4 amended. The committed scenario leaves the WAL containing exactly,
in order: `Write(tid 0, seq 1, (0, 1), diff_start 0, diff [25; 512])`,
`Write(tid 0, seq 2, (0, 2), diff_start 0, diff [69; 512])`,
`Commit(tid 0, seq 3)` — each Write carrying a single XOR diff (equal to
the after image here because the before image is all zeroes), with tids
starting at 0 and seqs starting at 1 and consecutive; all three records
are flushed, and iteration yields them without seqs. -/
theorem c4_wal_contents_xor_diff_records :
    c4Final.wal_pushed =
      [.write 0 1 (0, 1) 0 (List.replicate 512 25),
       .write 0 2 (0, 2) 0 (List.replicate 512 69),
       .commit 0 3] ∧
    c4Final.wal_flushed = 3 ∧
    iterItems c4Final =
      [.write 0 (0, 1) 0 (List.replicate 512 25),
       .write 0 (0, 2) 0 (List.replicate 512 69),
       .commit 0] := by
  refine ⟨by decide, by decide, by decide⟩

/-- Association-list lookup standing in for `HashMap::get`. -/
def lookupA : List (PageId × Nat) → PageId → Option Nat
  | [], _ => none
  | e :: rest, k => if e.1 = k then some e.2 else lookupA rest k

/-- `HashMap::remove`: drop every entry of `k` (keys are unique, so this
removes exactly the entry of `k`). -/
def eraseKey : List (PageId × Nat) → PageId → List (PageId × Nat)
  | [], _ => []
  | e :: rest, k =>
    if e.1 = k then eraseKey rest k else e :: eraseKey rest k

/-- `HashMap::insert`: replace any entry of `k` with the new binding. -/
def insertA (m : List (PageId × Nat)) (k : PageId) (v : Nat) :
    List (PageId × Nat) :=
  eraseKey m k ++ [(k, v)]

/-- Modelled from the spec: the `CacheManager` recency structure
(src/acorn/src/cache/manager.rs is not under src/). Spec section 4.2:
touched pages move to the MRU end, eviction removes from the LRU end. The
list holds the LRU end at the head; `access` moves the page to the back. -/
def touchL (l : List PageId) (page_id : PageId) : List PageId :=
  l.filter (fun p => p ≠ page_id) ++ [page_id]

/-- State of `PageCache` (src/acorn/src/cache/mod.rs) plus the collaborating
`PageBuffer` and `CacheManager` modelled from the spec: the recency list,
the `PageId -> slot` map, the dirty set, the allocated slots, the frame
bytes per slot, and the buffer capacity. -/
structure CacheSt where
  lru : List PageId
  map : List (PageId × Nat)
  dirty : List PageId
  allocated : List Nat
  frames : Nat → List Nat
  capacity : Nat

/-- The storage collaborator (spec section 6): page content served by
`read_page`, plus which reads and writes fail with a storage error. -/
structure StorageM where
  readData : PageId → List Nat
  readErr : PageId → Bool
  writeErr : PageId → Bool

/-- How `PageCache::access` returns: a slot index, a bubbled-up storage
error, or a process abort from a violated internal invariant (`expect`). -/
inductive AccessOutcome where
  | ok (idx : Nat)
  | storageErr
  | panicked
  deriving DecidableEq

/-- Result of one `PageCache::access` call: the cache state when the call
returns (mutations before an error persist, as they do under the state
mutex), the storage writes performed, the page reclaimed by eviction if
any, and the outcome. -/
structure AccessResult where
  st : CacheSt
  writes : List (List Nat × PageId)
  evicted : Option PageId
  out : AccessOutcome

/-- Modelled from the spec: `PageBuffer::allocate_page`
(src/acorn/src/cache/buffer.rs is not under src/) reserves a free frame;
the model picks the smallest unallocated slot below the capacity. -/
def allocSlot (c : CacheSt) : Option Nat :=
  (List.range c.capacity).find? (fun i => i ∉ c.allocated)

/-- The tail of `PageCache::access` after eviction: `allocate_page` (panic
if it fails), read the page from storage into the new frame (bubbling up a
storage error before `map` is updated), then insert into `map`. -/
def accessLoad (c : CacheSt) (s : StorageM) (page_id : PageId)
    (writes : List (List Nat × PageId)) (evicted : Option PageId) :
    AccessResult :=
  match allocSlot c with
  | none => ⟨c, writes, evicted, .panicked⟩
  | some i =>
    let c1 := { c with allocated := c.allocated ++ [i] }
    if s.readErr page_id then ⟨c1, writes, evicted, .storageErr⟩
    else
      let c2 := { c1 with
        frames := fun j => if j = i then s.readData page_id else c1.frames j }
      ⟨{ c2 with map := insertA c2.map page_id i }, writes, evicted, .ok i⟩

/-- Steps 1 and 2 of `PageCache::access`: record the touch with the
recency manager and insert the page into the dirty set when the access
requests it and the page is not already dirty. -/
def accessTouched (c : CacheSt) (page_id : PageId) (dirty : Bool) :
    CacheSt :=
  let c1 := { c with lru := touchL c.lru page_id }
  if dirty ∧ page_id ∉ c1.dirty then
    { c1 with dirty := c1.dirty ++ [page_id] }
  else c1

/-- Step 4 of `PageCache::access`, the eviction on a full buffer: reclaim
a victim from the manager (`expect` panics if there is none, or if it is
not in `map`), remove it from `map`, write its frame back to storage if it
is dirty (a write error bubbles up before the dirty entry is removed and
before the slot is freed), free its slot, then load the requested page. -/
def accessEvict (c : CacheSt) (s : StorageM) (page_id : PageId) :
    AccessResult :=
  match c.lru.head? with
  | none => ⟨c, [], none, .panicked⟩
  | some victim =>
    let c1 := { c with lru := c.lru.tail }
    match lookupA c1.map victim with
    | none => ⟨c1, [], some victim, .panicked⟩
    | some vidx =>
      let c2 := { c1 with map := eraseKey c1.map victim }
      if victim ∈ c2.dirty then
        if s.writeErr victim then ⟨c2, [], some victim, .storageErr⟩
        else
          let w := (c2.frames vidx, victim)
          let c3 := { c2 with
            dirty := c2.dirty.filter (fun p => p ≠ victim) }
          let c4 := { c3 with
            allocated := c3.allocated.filter (fun j => j ≠ vidx) }
          accessLoad c4 s page_id [w] (some victim)
      else
        let c3 := { c2 with
          allocated := c2.allocated.filter (fun j => j ≠ vidx) }
        accessLoad c3 s page_id [] (some victim)

/-- `PageCache::access(page_id, dirty)` from src/acorn/src/cache/mod.rs:
touch and mark dirty, return the slot when resident, otherwise evict when
the buffer is full and load the page from storage into a fresh slot. -/
def access (c : CacheSt) (s : StorageM) (page_id : PageId)
    (dirty : Bool) : AccessResult :=
  let c1 := accessTouched c page_id dirty
  match lookupA c1.map page_id with
  | some i => ⟨c1, [], none, .ok i⟩
  | none =>
    if c1.allocated.length < c1.capacity then
      accessLoad c1 s page_id [] none
    else
      accessEvict c1 s page_id

/-- Outcome of `PageCache::flush`. -/
inductive FlushOutcome where
  | ok
  | storageErr
  | panicked
  deriving DecidableEq

/-- The loop of `PageCache::flush` over the dirty set: look up each dirty
page's slot (`unwrap` panics if it is unmapped), write its frame to
storage, and stop at the first failing write. The dirty set is only
cleared after the whole loop succeeds. -/
def flushGo (c : CacheSt) (s : StorageM) :
    List PageId → List (List Nat × PageId) →
    CacheSt × List (List Nat × PageId) × FlushOutcome
  | [], ws => ({ c with dirty := [] }, ws, .ok)
  | p :: rest, ws =>
    match lookupA c.map p with
    | none => (c, ws, .panicked)
    | some i =>
      if s.writeErr p then (c, ws, .storageErr)
      else flushGo c s rest (ws ++ [(c.frames i, p)])

/-- `PageCache::flush` from src/acorn/src/cache/mod.rs. -/
def flush (c : CacheSt) (s : StorageM) :
    CacheSt × List (List Nat × PageId) × FlushOutcome :=
  flushGo c s c.dirty []

/-- `PageCache::num_dirty`. -/
def num_dirty (c : CacheSt) : Nat := c.dirty.length

/-- Invariant (I2) of the spec: every dirty page is resident in `map`. -/
def dirtySubsetMap (c : CacheSt) : Prop :=
  ∀ p ∈ c.dirty, (lookupA c.map p).isSome = true

instance dirtySubsetMapDecidable (c : CacheSt) :
    Decidable (dirtySubsetMap c) :=
  inferInstanceAs
    (Decidable (∀ p ∈ c.dirty, (lookupA c.map p).isSome = true))

theorem lookupA_append (m₁ m₂ : List (PageId × Nat)) (k : PageId) :
    lookupA (m₁ ++ m₂) k =
      match lookupA m₁ k with
      | some v => some v
      | none => lookupA m₂ k := by
  induction m₁ with
  | nil => simp [lookupA]
  | cons e rest ih =>
    by_cases h : e.1 = k <;> simp [lookupA, h, ih]

theorem lookupA_eraseKey_self (m : List (PageId × Nat)) (k : PageId) :
    lookupA (eraseKey m k) k = none := by
  induction m with
  | nil => simp [eraseKey, lookupA]
  | cons e rest ih =>
    by_cases h : e.1 = k <;> simp [eraseKey, lookupA, h, ih]

theorem lookupA_eraseKey_ne (m : List (PageId × Nat)) (k p : PageId)
    (h : p ≠ k) : lookupA (eraseKey m k) p = lookupA m p := by
  induction m with
  | nil => simp [eraseKey]
  | cons e rest ih =>
    by_cases he : e.1 = k
    · simp [eraseKey, lookupA, he, Ne.symm h, ih]
    · by_cases hp : e.1 = p <;> simp [eraseKey, lookupA, he, hp, h, ih]

theorem lookupA_insertA_self (m : List (PageId × Nat)) (k : PageId)
    (v : Nat) : lookupA (insertA m k v) k = some v := by
  simp [insertA, lookupA_append, lookupA_eraseKey_self, lookupA]

theorem lookupA_insertA_ne (m : List (PageId × Nat)) (k p : PageId)
    (v : Nat) (h : p ≠ k) : lookupA (insertA m k v) p = lookupA m p := by
  rw [insertA, lookupA_append, lookupA_eraseKey_ne m k p h]
  cases hm : lookupA m p with
  | some w => simp
  | none => simp [lookupA, Ne.symm h]

theorem accessTouched_map (c : CacheSt) (page_id : PageId) (d : Bool) :
    (accessTouched c page_id d).map = c.map := by
  simp only [accessTouched]
  split <;> rfl

theorem accessTouched_alloc (c : CacheSt) (page_id : PageId) (d : Bool) :
    (accessTouched c page_id d).allocated = c.allocated ∧
    (accessTouched c page_id d).capacity = c.capacity := by
  simp only [accessTouched]
  split <;> exact ⟨rfl, rfl⟩

theorem accessTouched_dirty (c : CacheSt) (page_id : PageId) (d : Bool) :
    ∀ p ∈ (accessTouched c page_id d).dirty, p ∈ c.dirty ∨ p = page_id := by
  simp only [accessTouched]
  split
  · intro p hp
    simp only [List.mem_append, List.mem_singleton] at hp
    exact hp.imp id id
  · intro p hp
    exact Or.inl hp

theorem accessLoad_preserves (c : CacheSt) (s : StorageM)
    (page_id : PageId) (ws : List (List Nat × PageId))
    (ev : Option PageId) (i : Nat)
    (hd : ∀ p ∈ c.dirty, p = page_id ∨ (lookupA c.map p).isSome = true)
    (hok : (accessLoad c s page_id ws ev).out = .ok i) :
    dirtySubsetMap (accessLoad c s page_id ws ev).st := by
  cases hA : allocSlot c with
  | none => simp [accessLoad, hA] at hok
  | some slot =>
    by_cases hr : s.readErr page_id = true
    · simp [accessLoad, hA, hr] at hok
    · simp only [Bool.not_eq_true] at hr
      simp only [accessLoad, hA, hr, Bool.false_eq_true, if_false]
      intro p hp
      simp only at hp ⊢
      by_cases hpe : p = page_id
      · rw [hpe, lookupA_insertA_self]; rfl
      · rw [lookupA_insertA_ne _ _ _ _ hpe]
        rcases hd p hp with h | h
        · exact absurd h hpe
        · exact h

theorem accessEvict_preserves (c : CacheSt) (s : StorageM)
    (page_id : PageId) (i : Nat)
    (hd : ∀ p ∈ c.dirty, p = page_id ∨ (lookupA c.map p).isSome = true)
    (hok : (accessEvict c s page_id).out = .ok i) :
    dirtySubsetMap (accessEvict c s page_id).st := by
  cases hv : c.lru.head? with
  | none => simp [accessEvict, hv] at hok
  | some victim =>
    cases hm : lookupA c.map victim with
    | none => simp [accessEvict, hv, hm] at hok
    | some vidx =>
      by_cases hvd : victim ∈ c.dirty
      · by_cases hw : s.writeErr victim = true
        · simp [accessEvict, hv, hm, hvd, hw] at hok
        · simp only [Bool.not_eq_true] at hw
          simp only [accessEvict, hv, hm, hvd, hw, if_pos,
            Bool.false_eq_true, if_false] at hok ⊢
          refine accessLoad_preserves _ _ _ _ _ i ?_ hok
          intro p hp
          simp only [List.mem_filter, decide_eq_true_eq] at hp
          rcases hd p hp.1 with h | h
          · exact Or.inl h
          · right
            rw [lookupA_eraseKey_ne _ _ _ hp.2]
            exact h
      · simp only [accessEvict, hv, hm, hvd, if_neg, if_false] at hok ⊢
        refine accessLoad_preserves _ _ _ _ _ i ?_ hok
        intro p hp
        simp only at hp
        have hpv : p ≠ victim := fun he => hvd (he ▸ hp)
        rcases hd p hp with h | h
        · exact Or.inl h
        · right
          rw [lookupA_eraseKey_ne _ _ _ hpv]
          exact h

theorem flushGo_state (c : CacheSt) (s : StorageM) :
    ∀ (l : List PageId) (ws : List (List Nat × PageId)),
      (flushGo c s l ws).1 = c ∨
        (flushGo c s l ws).1 = { c with dirty := [] } := by
  intro l
  induction l with
  | nil => intro ws; right; rfl
  | cons p rest ih =>
    intro ws
    cases hm : lookupA c.map p with
    | none => left; simp [flushGo, hm]
    | some i =>
      by_cases hw : s.writeErr p = true
      · left; simp [flushGo, hm, hw]
      · simp only [Bool.not_eq_true] at hw
        simp only [flushGo, hm, hw, Bool.false_eq_true, if_false]
        exact ih _

theorem accessTouched_frames (c : CacheSt) (page_id : PageId) (d : Bool) :
    (accessTouched c page_id d).frames = c.frames := by
  simp only [accessTouched]
  split <;> rfl

theorem accessTouched_lru (c : CacheSt) (page_id : PageId) (d : Bool) :
    (accessTouched c page_id d).lru = touchL c.lru page_id := by
  simp only [accessTouched]
  split <;> rfl

theorem accessTouched_dirty_mem (c : CacheSt) (page_id : PageId) (d : Bool)
    (q : PageId) (hq : q ≠ page_id) :
    q ∈ (accessTouched c page_id d).dirty ↔ q ∈ c.dirty := by
  simp only [accessTouched]
  split
  · simp [hq]
  · exact Iff.rfl

theorem accessLoad_components (c : CacheSt) (s : StorageM)
    (page_id : PageId) (ws : List (List Nat × PageId)) (ev : Option PageId) :
    (accessLoad c s page_id ws ev).writes = ws ∧
    (accessLoad c s page_id ws ev).evicted = ev ∧
    (accessLoad c s page_id ws ev).st.dirty = c.dirty := by
  cases hA : allocSlot c with
  | none => simp [accessLoad, hA]
  | some slot =>
    by_cases hr : s.readErr page_id = true <;> simp [accessLoad, hA, hr]

theorem accessLoad_map_ne (c : CacheSt) (s : StorageM) (page_id : PageId)
    (ws : List (List Nat × PageId)) (ev : Option PageId) (q : PageId)
    (hq : q ≠ page_id) :
    lookupA (accessLoad c s page_id ws ev).st.map q = lookupA c.map q := by
  cases hA : allocSlot c with
  | none => simp [accessLoad, hA]
  | some slot =>
    by_cases hr : s.readErr page_id = true
    · simp [accessLoad, hA, hr]
    · simp only [Bool.not_eq_true] at hr
      simp only [accessLoad, hA, hr, Bool.false_eq_true, if_false]
      exact lookupA_insertA_ne _ _ _ _ hq

/-- An empty cache of capacity 1 over a storage whose reads fail. -/
def c5Cache : CacheSt :=
  { lru := [], map := [], dirty := [], allocated := [],
    frames := fun _ => [], capacity := 1 }

/-- Storage double for the C5 counterexample: every read fails. -/
def c5Storage : StorageM :=
  { readData := fun _ => [0, 0], readErr := fun _ => true,
    writeErr := fun _ => false }

/-- C5 counterexample. The claim asserts `dirty ⊆ keys(map)` after every
`read_page`, `write_page` or `flush` call, whether it returns Ok or Err.
A `write_page` of the non-resident page `(0, 1)` whose storage read fails
inserts `(0, 1)` into the dirty set before loading the page, then returns
the storage error without inserting it into `map`: the call returns Err
with `(0, 1)` dirty but not resident. -/
theorem c5_dirty_not_resident_after_err :
    (access c5Cache c5Storage (0, 1) true).out = .storageErr ∧
    (access c5Cache c5Storage (0, 1) true).st.dirty = [(0, 1)] ∧
    lookupA (access c5Cache c5Storage (0, 1) true).st.map (0, 1) = none ∧
    ¬ dirtySubsetMap (access c5Cache c5Storage (0, 1) true).st := by
  refine ⟨by decide, by decide, by decide, by decide⟩

/-- C5 amended. `dirty ⊆ keys(map)` is preserved by every access
(`read_page` or `write_page`) that returns Ok, and by `flush` regardless
of its outcome; only an access that returns a storage error can break it. -/
theorem c5_dirty_subset_map_on_ok (c : CacheSt) (s : StorageM)
    (page_id : PageId) (d : Bool) (i : Nat)
    (hinv : dirtySubsetMap c)
    (hok : (access c s page_id d).out = .ok i) :
    dirtySubsetMap (access c s page_id d).st ∧
    dirtySubsetMap (flush c s).1 := by
  constructor
  · have hd : ∀ p ∈ (accessTouched c page_id d).dirty,
        p = page_id ∨
          (lookupA (accessTouched c page_id d).map p).isSome = true := by
      intro p hp
      rcases accessTouched_dirty c page_id d p hp with h | h
      · right
        rw [accessTouched_map]
        exact hinv p h
      · exact Or.inl h
    cases hm : lookupA (accessTouched c page_id d).map page_id with
    | some j =>
      simp only [access, hm]
      intro p hp
      rcases accessTouched_dirty c page_id d p hp with h | h
      · rw [accessTouched_map]
        exact hinv p h
      · rw [h, hm]
        rfl
    | none =>
      by_cases hsp : (accessTouched c page_id d).allocated.length <
          (accessTouched c page_id d).capacity
      · simp only [access, hm, hsp, if_true] at hok ⊢
        exact accessLoad_preserves _ _ _ _ _ i hd hok
      · simp only [access, hm, hsp, if_false] at hok ⊢
        exact accessEvict_preserves _ _ _ i hd hok
  · rcases flushGo_state c s c.dirty [] with h | h
    · simp only [flush]
      rw [h]
      exact hinv
    · simp only [flush]
      rw [h]
      intro p hp
      simp at hp

/-- An empty cache of capacity 1 over an error-free storage double, used
to instantiate the amended C5 theorem. -/
def c5OkCache : CacheSt :=
  { lru := [], map := [], dirty := [], allocated := [],
    frames := fun _ => [], capacity := 1 }

/-- Error-free storage double. -/
def okStorage : StorageM :=
  { readData := fun _ => [0, 0], readErr := fun _ => false,
    writeErr := fun _ => false }

/-- Witness for the amended C5 theorem: a concrete `write_page` of
`(0, 1)` on an empty capacity-1 cache returns Ok and both invariant
conclusions hold. -/
theorem c5_dirty_subset_map_on_ok_witness :
    dirtySubsetMap c5OkCache ∧
    (access c5OkCache okStorage (0, 1) true).out = .ok 0 ∧
    dirtySubsetMap (access c5OkCache okStorage (0, 1) true).st ∧
    dirtySubsetMap (flush c5OkCache okStorage).1 := by
  have h := c5_dirty_subset_map_on_ok c5OkCache okStorage (0, 1) true 0
    (by decide) (by decide)
  exact ⟨by decide, by decide, h.1, h.2⟩

theorem flushGo_err_state (c : CacheSt) (s : StorageM) :
    ∀ (l : List PageId) (ws : List (List Nat × PageId)),
      (flushGo c s l ws).2.2 = .storageErr → (flushGo c s l ws).1 = c := by
  intro l
  induction l with
  | nil =>
    intro ws h
    simp [flushGo] at h
  | cons p rest ih =>
    intro ws h
    cases hm : lookupA c.map p with
    | none => simp [flushGo, hm]
    | some i =>
      by_cases hw : s.writeErr p = true
      · simp [flushGo, hm, hw]
      · simp only [Bool.not_eq_true] at hw
        simp only [flushGo, hm, hw, Bool.false_eq_true, if_false] at h ⊢
        exact ih _ h

/-- C9. If `PageCache::flush` fails with a storage error partway through
the dirty set, the whole cache state — in particular the dirty set — is
left exactly as it was, because `state.dirty.clear()` only runs after
every write succeeded; `num_dirty()` therefore reports the same value as
before the call even for pages that were already written out. -/
theorem c9_flush_err_leaves_dirty_unchanged (c : CacheSt) (s : StorageM)
    (herr : (flush c s).2.2 = .storageErr) :
    (flush c s).1 = c ∧
    (flush c s).1.dirty = c.dirty ∧
    num_dirty (flush c s).1 = num_dirty c := by
  have h : (flush c s).1 = c := flushGo_err_state c s c.dirty [] herr
  exact ⟨h, by rw [h], by rw [h]⟩

/-- A cache with the single dirty resident page `(0, 1)`. -/
def c9Cache : CacheSt :=
  { lru := [(0, 1)], map := [((0, 1), 0)], dirty := [(0, 1)],
    allocated := [0], frames := fun _ => [7, 7], capacity := 2 }

/-- Storage double whose writes all fail. -/
def c9Storage : StorageM :=
  { readData := fun _ => [0, 0], readErr := fun _ => false,
    writeErr := fun _ => true }

/-- Witness for C9: flushing `c9Cache` over the write-failing storage
returns the storage error and leaves the dirty set `[(0, 1)]` intact. -/
theorem c9_flush_err_leaves_dirty_unchanged_witness :
    (flush c9Cache c9Storage).2.2 = .storageErr ∧
    (flush c9Cache c9Storage).1.dirty = [(0, 1)] ∧
    num_dirty (flush c9Cache c9Storage).1 = 1 := by
  have h := c9_flush_err_leaves_dirty_unchanged c9Cache c9Storage (by decide)
  exact ⟨by decide, by rw [h.2.1]; decide, by rw [h.2.2]; decide⟩

/-- C7. For an access to a page not resident in a full cache, with the
recency manager reclaiming victim `v` (resident at slot `vidx`) and the
write-back not failing: the victim is removed from `map`; if it was dirty
its frame bytes are written to storage at the victim's page id and it is
removed from the dirty set; if it was clean no storage write happens
during the eviction. -/
theorem c7_eviction_writeback (c : CacheSt) (s : StorageM)
    (page_id v : PageId) (vidx : Nat) (d : Bool)
    (hnr : lookupA c.map page_id = none)
    (hfull : c.capacity ≤ c.allocated.length)
    (hv : (touchL c.lru page_id).head? = some v)
    (hm : lookupA c.map v = some vidx)
    (hw : s.writeErr v = false) :
    (access c s page_id d).evicted = some v ∧
    lookupA (access c s page_id d).st.map v = none ∧
    (v ∈ c.dirty →
      (access c s page_id d).writes = [(c.frames vidx, v)] ∧
      v ∉ (access c s page_id d).st.dirty) ∧
    (v ∉ c.dirty → (access c s page_id d).writes = []) := by
  have hvp : v ≠ page_id := by
    intro he
    rw [he, hnr] at hm
    exact Option.noConfusion hm
  have h1m := accessTouched_map c page_id d
  have h1a := (accessTouched_alloc c page_id d).1
  have h1c := (accessTouched_alloc c page_id d).2
  have h1f := accessTouched_frames c page_id d
  have h1l := accessTouched_lru c page_id d
  have hnr1 : lookupA (accessTouched c page_id d).map page_id = none := by
    rw [h1m]; exact hnr
  have hfull1 : ¬ (accessTouched c page_id d).allocated.length <
      (accessTouched c page_id d).capacity := by
    rw [h1a, h1c]; omega
  have hacc : access c s page_id d =
      accessEvict (accessTouched c page_id d) s page_id := by
    simp only [access, hnr1]
    rw [if_neg hfull1]
  rw [hacc]
  have hv1 : (accessTouched c page_id d).lru.head? = some v := by
    rw [h1l]; exact hv
  have hm1 : lookupA (accessTouched c page_id d).map v = some vidx := by
    rw [h1m]; exact hm
  simp only [accessEvict, hv1, hm1]
  by_cases hvd : v ∈ c.dirty
  · have hvd1 : v ∈ (accessTouched c page_id d).dirty :=
      (accessTouched_dirty_mem c page_id d v hvp).mpr hvd
    rw [if_pos hvd1, hw]
    simp only [Bool.false_eq_true, if_false]
    refine ⟨(accessLoad_components _ _ _ _ _).2.1, ?_, fun _ => ⟨?_, ?_⟩,
      fun h => absurd hvd h⟩
    · rw [accessLoad_map_ne _ _ _ _ _ v hvp]
      dsimp only
      rw [h1m]
      exact lookupA_eraseKey_self _ _
    · rw [(accessLoad_components _ _ _ _ _).1, h1f]
    · rw [(accessLoad_components _ _ _ _ _).2.2]
      dsimp only
      simp
  · have hvd1 : v ∉ (accessTouched c page_id d).dirty := fun h =>
      hvd ((accessTouched_dirty_mem c page_id d v hvp).mp h)
    rw [if_neg hvd1]
    refine ⟨(accessLoad_components _ _ _ _ _).2.1, ?_, fun h => absurd h hvd,
      fun _ => (accessLoad_components _ _ _ _ _).1⟩
    rw [accessLoad_map_ne _ _ _ _ _ v hvp]
    dsimp only
    rw [h1m]
    exact lookupA_eraseKey_self _ _

/-- A full capacity-1 cache whose only resident page `(0, 1)` is dirty
with frame bytes `[7, 7]`. -/
def c7Cache : CacheSt :=
  { lru := [(0, 1)], map := [((0, 1), 0)], dirty := [(0, 1)],
    allocated := [0], frames := fun i => if i = 0 then [7, 7] else [],
    capacity := 1 }

/-- Witness for C7: accessing the non-resident `(0, 2)` evicts the dirty
victim `(0, 1)`, writing its frame `[7, 7]` back to storage. -/
theorem c7_eviction_writeback_witness :
    lookupA c7Cache.map (0, 2) = none ∧
    c7Cache.capacity ≤ c7Cache.allocated.length ∧
    (touchL c7Cache.lru (0, 2)).head? = some (0, 1) ∧
    lookupA c7Cache.map (0, 1) = some 0 ∧
    okStorage.writeErr (0, 1) = false ∧
    (access c7Cache okStorage (0, 2) false).evicted = some (0, 1) ∧
    (access c7Cache okStorage (0, 2) false).writes = [([7, 7], (0, 1))] := by
  have h := c7_eviction_writeback c7Cache okStorage (0, 2) (0, 1) 0 false
    (by decide) (by decide) (by decide) (by decide) (by decide)
  refine ⟨by decide, by decide, by decide, by decide, by decide, h.1, ?_⟩
  rw [(h.2.2.1 (by decide)).1]
  decide

/-- An empty capacity-2 cache over error-free storage. -/
def c6Init : CacheSt :=
  { lru := [], map := [], dirty := [], allocated := [],
    frames := fun _ => [], capacity := 2 }

/-- A live transaction write-locks `(0, 1)`: `Transaction::write` calls
`cache.write_page`, i.e. a dirty access, and keeps the returned frame
guard in its `locks` map until commit or cancel. -/
def c6Step1 : AccessResult := access c6Init okStorage (0, 1) true

/-- The same transaction write-locks `(0, 2)` as well. -/
def c6Step2 : AccessResult := access c6Step1.st okStorage (0, 2) true

/-- The pages on which the transaction still holds write guards after the
two writes: both resident pages of the cache are pinned. -/
def c6PinnedPages : List PageId := [(0, 1), (0, 2)]

/-- A third access (any reader touching `(0, 3)`) arrives while the
transaction is still active and the buffer is full. -/
def c6Step3 : AccessResult := access c6Step2.st okStorage (0, 3) false

/-- C6. The claim says a page pinned by an outstanding write guard is
never selected as the eviction victim. In the trace above the reclaim
step of the third access selects `(0, 1)` — a page the live transaction
still holds a write guard on (indeed both resident pages are pinned, so no
reclaim policy behind `CacheManager`'s pin-blind `access`/`reclaim`
interface could avoid a pinned victim) — and removes it from `map` while
the guard is outstanding. -/
theorem c6_pinned_page_selected_for_eviction :
    c6Step1.out = .ok 0 ∧ c6Step2.out = .ok 1 ∧
    c6Step3.evicted = some (0, 1) ∧ (0, 1) ∈ c6PinnedPages ∧
    lookupA c6Step3.st.map (0, 1) = none := by
  refine ⟨by decide, by decide, by decide, by decide, by decide⟩

/-- A freelist page (src/acorn/src/pages/freelist.rs): the next trunk in
the chain, the number of used item slots, and the item slots. -/
structure FlPage where
  next : Option Nat
  length : Nat
  items : List (Option Nat)
  deriving DecidableEq

/-- Modelled from the spec: the per-segment page state seen through
`PageRwManager` typed reads and writes (src/acorn/src/manage/rw.rs is not
under src/): the segment header's freelist trunk root and the freelist
pages, indexed by page number. `free_page` never touches `num_pages`, so
the header is reduced to its trunk field. -/
structure SegState where
  freelist_trunk : Option Nat
  pages : Nat → FlPage

/-- `SegmentAllocManager::set_freelist_trunk`
(src/acorn/src/manage/segment_alloc.rs): write the trunk root into the
segment header page. -/
def set_freelist_trunk (st : SegState) (trunk : Option Nat) : SegState :=
  { st with freelist_trunk := trunk }

/-- A typed `write_page` of one freelist page: replace page `n`. -/
def SegState.setPage (st : SegState) (n : Nat) (pg : FlPage) : SegState :=
  { st with pages := fun m => if m = n then pg else st.pages m }

/-- `SegmentAllocManager::free_page(tid, page_num)` from
src/acorn/src/manage/segment_alloc.rs, with the transaction page writes
flattened into direct state updates: when a trunk exists and has room, the
freed page number is pushed onto its items; then — unconditionally, the
has-room branch does not return early — the freed page itself is
initialised as a new trunk whose `next` is the old trunk, and the header's
trunk root is set to the freed page. -/
def free_page (st : SegState) (page_num : Nat) : SegState :=
  let trunk_page_num := st.freelist_trunk
  let st1 :=
    match trunk_page_num with
    | none => st
    | some t =>
      let trunk_page := st.pages t
      let has_free_space := trunk_page.length < trunk_page.items.length
      if has_free_space then
        st.setPage t
          { trunk_page with
            items :=
              trunk_page.items.set trunk_page.length (some page_num),
            length := trunk_page.length + 1 }
      else st
  let st2 := st1.setPage page_num
    { next := trunk_page_num, length := 0,
      items := List.replicate (st1.pages page_num).items.length none }
  set_freelist_trunk st2 (some page_num)

/-- A segment whose freelist trunk is page 1, which is empty and has room
for four items; every other freelist page is blank. -/
def c8Seg : SegState :=
  { freelist_trunk := some 1
    pages := fun _ =>
      { next := none, length := 0, items := [none, none, none, none] } }

/-- C8. The claim says that when the current trunk has room, `free_page`
only pushes the freed page onto that trunk and leaves the trunk root
unchanged. On `c8Seg` (trunk 1, empty, room for 4), `free_page 2` does
push 2 onto trunk 1 — but it then also makes page 2 the new trunk chained
to the old trunk 1 and updates the header root to 2, so the trunk root
changes and page 2 is simultaneously the trunk and a member of the
freelist. -/
theorem c8_free_page_replaces_trunk_despite_room :
    ((c8Seg.pages 1).length < (c8Seg.pages 1).items.length) ∧
    (free_page c8Seg 2).freelist_trunk = some 2 ∧
    ((free_page c8Seg 2).pages 1).items =
      [some 2, none, none, none] ∧
    ((free_page c8Seg 2).pages 1).length = 1 ∧
    ((free_page c8Seg 2).pages 2).next = some 1 := by
  refine ⟨by decide, by decide, by decide, by decide, by decide⟩

/-- The payload of a WAL item in the before/after recovery design
(`wal::ItemData` as consumed by src/acorn/src/manage/recovery.rs): a Write
carries the page id, the range start and both the before and after images
of the range; Commit and Cancel carry nothing beyond the item info. -/
inductive RecData where
  | write (page_id : PageId) (start : Nat) (before after : List Nat)
  | commit
  | cancel
  deriving DecidableEq

/-- A WAL item: `wal::ItemInfo` (tid, seq) plus the payload. -/
structure RecItem where
  tid : Nat
  seq : Nat
  data : RecData
  deriving DecidableEq

/-- Whether an item is a Write record. -/
def isWriteItem (it : RecItem) : Bool :=
  match it.data with
  | .write _ _ _ _ => true
  | _ => false

/-- Overwrite `page[start .. start + data.length)` with `data`, the effect
of `copy_from_slice` in `RecoveryManager::apply_write`; faithful whenever
`start + data.length ≤ page.length` (otherwise the Rust code panics). -/
def overwriteAt (page : List Nat) (start : Nat) (data : List Nat) :
    List Nat :=
  page.take start ++ data ++ page.drop (start + data.length)

/-- `RecoveryManager::apply_write` (src/acorn/src/manage/recovery.rs):
write `data` at `page[start ..]` through a cache write guard. -/
def apply_write (σ : PageState) (page_id : PageId) (start : Nat)
    (data : List Nat) : PageState :=
  fun p => if p = page_id then overwriteAt (σ page_id) start data else σ p

/-- The bytes of `page_id` at `[start, start + len)`. -/
def readRange (σ : PageState) (page_id : PageId) (start len : Nat) :
    List Nat :=
  ((σ page_id).drop start).take len

/-- Applying a Write item's after image (the forward pass of
`fast_forward`); Commit and Cancel leave the pages alone. -/
def redoStep (σ : PageState) (it : RecItem) : PageState :=
  match it.data with
  | .write page_id start _ after => apply_write σ page_id start after
  | _ => σ

/-- Applying a Write item's before image (the loop body of
`revert_from`); non-Write items are skipped. -/
def undoStep (σ : PageState) (it : RecItem) : PageState :=
  match it.data with
  | .write page_id start before _ => apply_write σ page_id start before
  | _ => σ

/-- `HashMap<u64, NonZeroU64>` lookup for `open_transactions`. -/
def lookupT : List (Nat × Nat) → Nat → Option Nat
  | [], _ => none
  | e :: rest, k => if e.1 = k then some e.2 else lookupT rest k

/-- `HashMap` removal for `open_transactions`. -/
def removeT : List (Nat × Nat) → Nat → List (Nat × Nat)
  | [], _ => []
  | e :: rest, k => if e.1 = k then removeT rest k else e :: removeT rest k

/-- `HashMap` insertion for `open_transactions`. -/
def insertT (m : List (Nat × Nat)) (k v : Nat) : List (Nat × Nat) :=
  removeT m k ++ [(k, v)]

/-- `HashSet<NonZeroU64>` insertion for the `revert` set. -/
def insertSet (l : List Nat) (x : Nat) : List Nat :=
  if x ∈ l then l else l ++ [x]

/-- One iteration of the `fast_forward` loop
(src/acorn/src/manage/recovery.rs): every item first records
`open_transactions.insert(tid, seq)`; a Write applies its after image, a
Commit removes the tid, and a Cancel removes the tid and inserts the
just-recorded seq into the revert set. -/
def ffStep (acc : PageState × List (Nat × Nat) × List Nat)
    (it : RecItem) : PageState × List (Nat × Nat) × List Nat :=
  let (σ, opens, revert) := acc
  let opens1 := insertT opens it.tid it.seq
  match it.data with
  | .write page_id start _ after =>
    (apply_write σ page_id start after, opens1, revert)
  | .commit => (σ, removeT opens1 it.tid, revert)
  | .cancel =>
    match lookupT opens1 it.tid with
    | some last_seq => (σ, removeT opens1 it.tid, insertSet revert last_seq)
    | none => (σ, removeT opens1 it.tid, revert)

/-- Modelled from the spec: `Wal::retrace_transaction(starting_seq)`
(src/acorn/src/disk/wal.rs is not under src/). Per spec section 4.4 it
yields the Write records of the transaction owning `starting_seq`, from
`starting_seq` backward to the earliest Write of that tid. -/
def retrace_transaction (wal : List RecItem) (seq : Nat) : List RecItem :=
  match (wal.filter (fun it => it.seq = seq)).head? with
  | none => []
  | some anchor =>
    (wal.filter (fun it =>
      it.tid = anchor.tid ∧ it.seq ≤ seq ∧ isWriteItem it = true)).reverse

/-- `RecoveryManager::revert_from(seq)`: retrace the transaction backward
and re-apply each Write's before image. -/
def revert_from (wal : List RecItem) (σ : PageState) (seq : Nat) :
    PageState :=
  (retrace_transaction wal seq).foldl undoStep σ

/-- `RecoveryManager::fast_forward`: the forward WAL pass, followed by a
`revert_from` for every seq collected in the revert set; returns the page
state and the remaining `open_transactions`. -/
def fast_forward (wal : List RecItem) (σ : PageState) :
    PageState × List (Nat × Nat) :=
  let acc := wal.foldl ffStep (σ, [], [])
  (acc.2.2.foldl (fun σr seq => revert_from wal σr seq) acc.1, acc.2.1)

/-- `RecoveryManager::recover`: fast-forward, then revert every
transaction still open. -/
def recover (wal : List RecItem) (σ : PageState) : PageState :=
  let res := fast_forward wal σ
  res.2.foldl (fun σr e => revert_from wal σr e.2) res.1

/-- The runtime system the recovery manager mutates: the cached pages, the
WAL contents and how many records are flushed. -/
structure RecSys where
  pages : PageState
  wal : List RecItem
  wal_flushed : Nat

/-- `RecoveryManager::cancel_transaction` (src/acorn/src/manage/recovery.rs):
push the Cancel record, flush the WAL, then immediately `revert_from` the
cancel's own seq, re-applying the before images in the page cache. -/
def cancel_transaction (sys : RecSys) (tid seq : Nat) : RecSys :=
  let wal1 := sys.wal ++ [⟨tid, seq, .cancel⟩]
  { pages := revert_from wal1 sys.pages seq, wal := wal1,
    wal_flushed := wal1.length }

theorem overwriteAt_length (pg : List Nat) (s : Nat) (d : List Nat)
    (h : s + d.length ≤ pg.length) :
    (overwriteAt pg s d).length = pg.length := by
  simp only [overwriteAt, List.length_append, List.length_take,
    List.length_drop]
  omega

theorem length_take_of_le {pg : List Nat} {s : Nat} (h : s ≤ pg.length) :
    (pg.take s).length = s := by
  rw [List.length_take]
  omega

theorem overwriteAt_get?_left {pg : List Nat} {s : Nat} {d : List Nat}
    {i : Nat} (h : i < s) (hs : s ≤ pg.length) :
    (overwriteAt pg s d).get? i = pg.get? i := by
  have hts : (pg.take s).length = s := length_take_of_le hs
  rw [overwriteAt, List.get?_append (by rw [List.length_append, hts]; omega),
    List.get?_append (by rw [hts]; omega), List.get?_take h]

theorem overwriteAt_get?_right {pg : List Nat} {s : Nat} {d : List Nat}
    {i : Nat} (h : s + d.length ≤ i) (hfit : s + d.length ≤ pg.length) :
    (overwriteAt pg s d).get? i = pg.get? i := by
  have hts : (pg.take s).length = s :=
    length_take_of_le (by omega)
  have hl : (pg.take s ++ d).length = s + d.length := by
    rw [List.length_append, hts]
  rw [overwriteAt, List.get?_append_right (by rw [hl]; omega), hl,
    List.get?_drop]
  congr 1
  omega

theorem readRange_length (σ : PageState) (pid : PageId) (s l : Nat)
    (hfit : s + l ≤ (σ pid).length) :
    (readRange σ pid s l).length = l := by
  simp only [readRange, List.length_take, List.length_drop]
  omega

theorem apply_write_page_length (σ : PageState) (pid' : PageId) (s : Nat)
    (d : List Nat) (p : PageId)
    (hfit : p = pid' → s + d.length ≤ (σ p).length) :
    ((apply_write σ pid' s d) p).length = (σ p).length := by
  by_cases hp : p = pid'
  · subst hp
    simp only [apply_write, if_pos rfl]
    exact overwriteAt_length _ _ _ (hfit rfl)
  · simp [apply_write, hp]

theorem apply_write_self (σ : PageState) (pid : PageId) (s : Nat)
    (d : List Nat) :
    (apply_write σ pid s d) pid = overwriteAt (σ pid) s d := by
  simp [apply_write]

theorem apply_write_ne (σ : PageState) (pid pid' : PageId) (s : Nat)
    (d : List Nat) (h : pid ≠ pid') :
    (apply_write σ pid' s d) pid = σ pid := by
  simp [apply_write, h]

theorem readRange_apply_write_exact (σ : PageState) (pid : PageId)
    (s : Nat) (d : List Nat) (hfit : s + d.length ≤ (σ pid).length) :
    readRange (apply_write σ pid s d) pid s d.length = d := by
  have hts : ((σ pid).take s).length = s := length_take_of_le (by omega)
  rw [readRange, apply_write_self, overwriteAt, List.append_assoc,
    List.drop_left' hts, List.take_left' rfl]

theorem readRange_apply_write_other (σ : PageState) (pid pid' : PageId)
    (s' : Nat) (d : List Nat) (s l : Nat) (hne : pid' ≠ pid) :
    readRange (apply_write σ pid' s' d) pid s l = readRange σ pid s l := by
  rw [readRange, apply_write_ne σ pid pid' s' d (Ne.symm hne), readRange]

theorem readRange_apply_write_disjoint (σ : PageState) (pid : PageId)
    (s' : Nat) (d : List Nat) (s l : Nat)
    (hfit : s' + d.length ≤ (σ pid).length)
    (hdis : s' + d.length ≤ s ∨ s + l ≤ s') :
    readRange (apply_write σ pid s' d) pid s l = readRange σ pid s l := by
  apply List.ext_get?
  intro n
  by_cases hn : n < l
  · simp only [readRange, apply_write_self]
    rw [List.get?_take hn, List.get?_take hn, List.get?_drop,
      List.get?_drop]
    rcases hdis with h | h
    · exact overwriteAt_get?_right (by omega) hfit
    · exact overwriteAt_get?_left (by omega) (by omega)
  · have h1 : (readRange (apply_write σ pid s' d) pid s l).get? n = none := by
      apply List.get?_eq_none.mpr
      simp only [readRange, List.length_take]
      omega
    have h2 : (readRange σ pid s l).get? n = none := by
      apply List.get?_eq_none.mpr
      simp only [readRange, List.length_take]
      omega
    rw [h1, h2]

theorem apply_write_writeback (σ : PageState) (pid : PageId) (s : Nat)
    (d : List Nat) (hfit : s + d.length ≤ (σ pid).length) :
    apply_write (apply_write σ pid s d) pid s (readRange σ pid s d.length)
      = σ := by
  funext p
  by_cases hp : p = pid
  · subst hp
    have hts : ((σ p).take s).length = s := length_take_of_le (by omega)
    have hsl : (readRange σ p s d.length).length = d.length :=
      readRange_length σ p s d.length hfit
    rw [apply_write_self, apply_write_self, overwriteAt, overwriteAt, hsl]
    have hl2 : ((σ p).take s ++ d).length = s + d.length := by
      rw [List.length_append, hts]
    rw [List.append_assoc ((σ p).take s) d, List.take_left' hts,
      ← List.append_assoc ((σ p).take s) d, List.drop_left' hl2]
    conv_rhs => rw [← List.take_append_drop s (σ p)]
    rw [List.append_assoc]
    congr 1
    conv_rhs => rw [← List.take_append_drop d.length ((σ p).drop s)]
    rw [List.drop_drop]
    rfl
  · rw [apply_write_ne _ _ _ _ _ hp, apply_write_ne _ _ _ _ _ hp]

/-- A WAL-produced run of Write items starting from page state `σ`: each
item is a Write whose before image is exactly what the range held when the
write was performed (which is how `Transaction::write` captures it), and
whose range fits inside the page. -/
def ConsistentFrom (σ : PageState) : List RecItem → Prop
  | [] => True
  | it :: rest =>
    match it.data with
    | .write pid s b a =>
      b = readRange σ pid s a.length ∧ s + a.length ≤ (σ pid).length ∧
        ConsistentFrom (apply_write σ pid s a) rest
    | .commit => False
    | .cancel => False

theorem undo_restores : ∀ (ws : List RecItem) (σ : PageState),
    ConsistentFrom σ ws →
    ws.reverse.foldl undoStep (ws.foldl redoStep σ) = σ := by
  intro ws
  induction ws with
  | nil => intro σ _; rfl
  | cons it rest ih =>
    intro σ hc
    cases hd : it.data with
    | write pid s b a =>
      simp only [ConsistentFrom, hd] at hc
      obtain ⟨hb, hfit, hrest⟩ := hc
      rw [List.reverse_cons, List.foldl_append]
      simp only [List.foldl_cons, List.foldl_nil]
      have hredo : redoStep σ it = apply_write σ pid s a := by
        simp [redoStep, hd]
      rw [hredo, ih (apply_write σ pid s a) hrest]
      have hundo : undoStep (apply_write σ pid s a) it =
          apply_write (apply_write σ pid s a) pid s b := by
        simp [undoStep, hd]
      rw [hundo, hb]
      exact apply_write_writeback σ pid s a hfit
    | commit =>
      simp only [ConsistentFrom, hd] at hc
    | cancel =>
      simp only [ConsistentFrom, hd] at hc

theorem retrace_after_cancel (wal : List RecItem) (tid seq : Nat)
    (hseq : ∀ it ∈ wal, it.seq < seq) :
    retrace_transaction (wal ++ [⟨tid, seq, .cancel⟩]) seq =
      (wal.filter (fun it =>
        it.tid = tid ∧ isWriteItem it = true)).reverse := by
  unfold retrace_transaction
  rw [List.filter_append]
  have h1 : wal.filter (fun it => it.seq = seq) = [] := by
    rw [List.filter_eq_nil]
    intro it hit
    simp [Nat.ne_of_lt (hseq it hit)]
  rw [h1]
  simp only [List.nil_append, List.filter_cons, decide_True, if_true,
    List.filter_nil, List.head?_cons]
  rw [List.filter_append]
  have h3 : ([⟨tid, seq, .cancel⟩] : List RecItem).filter (fun it =>
      it.tid = tid ∧ it.seq ≤ seq ∧ isWriteItem it = true) = [] := by
    simp [isWriteItem]
  rw [h3, List.append_nil]
  congr 1
  apply List.filter_congr
  intro it hit
  simp [Nat.le_of_lt (hseq it hit)]

/-- C10. `cancel_transaction` does more than append: it pushes the Cancel
record, flushes the WAL, and then re-applies in the page cache the before
images of all of the transaction's Writes, walking backward from the
cancel's seq — so when the WAL's Writes of `tid` (with consistently
captured before images) are exactly what produced the current pages from
`σ0`, the pages are restored to `σ0` at runtime. -/
theorem c10_cancel_reverts_pages (sys : RecSys) (tid seq : Nat)
    (ws : List RecItem) (σ0 : PageState)
    (hws : sys.wal.filter (fun it =>
      it.tid = tid ∧ isWriteItem it = true) = ws)
    (hseq : ∀ it ∈ sys.wal, it.seq < seq)
    (hcur : sys.pages = ws.foldl redoStep σ0)
    (hcons : ConsistentFrom σ0 ws) :
    (cancel_transaction sys tid seq).wal =
      sys.wal ++ [⟨tid, seq, .cancel⟩] ∧
    (cancel_transaction sys tid seq).wal_flushed = sys.wal.length + 1 ∧
    (cancel_transaction sys tid seq).pages = σ0 := by
  refine ⟨rfl, by simp [cancel_transaction], ?_⟩
  show revert_from (sys.wal ++ [⟨tid, seq, .cancel⟩]) sys.pages seq = σ0
  rw [revert_from, retrace_after_cancel sys.wal tid seq hseq, hws, hcur]
  exact undo_restores ws σ0 hcons

/-- The page state before the C10 witness transaction: every page holds
`[3, 3]`. -/
def c10Base : PageState := fun _ => [3, 3]

/-- The single Write of transaction 7: page `(0, 5)`, full range, before
`[3, 3]`, after `[9, 9]`. -/
def c10Write : RecItem := ⟨7, 1, .write (0, 5) 0 [3, 3] [9, 9]⟩

/-- The runtime system right before the cancel: the write has been applied
to the cached pages and logged. -/
def c10Sys : RecSys :=
  { pages := [c10Write].foldl redoStep c10Base, wal := [c10Write],
    wal_flushed := 1 }

/-- Witness for C10: cancelling transaction 7 at seq 2 appends the Cancel
record, flushes both records, and restores page `(0, 5)` from `[9, 9]`
back to its pre-transaction bytes `[3, 3]`. -/
theorem c10_cancel_reverts_pages_witness :
    c10Sys.pages (0, 5) = [9, 9] ∧
    (cancel_transaction c10Sys 7 2).wal = [c10Write, ⟨7, 2, .cancel⟩] ∧
    (cancel_transaction c10Sys 7 2).wal_flushed = 2 ∧
    (cancel_transaction c10Sys 7 2).pages (0, 5) = [3, 3] := by
  have h := c10_cancel_reverts_pages c10Sys 7 2 [c10Write] c10Base
    (by decide) (by decide) rfl ⟨by decide, by decide, trivial⟩
  refine ⟨by decide, h.1, h.2.1, ?_⟩
  rw [h.2.2]
  rfl

theorem getLast?_cons_ne {a : RecItem} {l : List RecItem} (h : l ≠ []) :
    (a :: l).getLast? = l.getLast? := by
  cases l with
  | nil => exact absurd rfl h
  | cons b bs => simp [List.getLast?_cons]

theorem ff_sigma : ∀ (wal : List RecItem) (σ : PageState)
    (o : List (Nat × Nat)) (r : List Nat),
    (wal.foldl ffStep (σ, o, r)).1 = wal.foldl redoStep σ := by
  intro wal
  induction wal with
  | nil => intro σ o r; rfl
  | cons it rest ih =>
    intro σ o r
    rw [List.foldl_cons, List.foldl_cons]
    cases hd : it.data with
    | write pid s b a =>
      simp only [ffStep, hd, redoStep]
      exact ih _ _ _
    | commit =>
      simp only [ffStep, hd, redoStep]
      exact ih _ _ _
    | cancel =>
      simp only [ffStep, hd, redoStep]
      cases lookupT (insertT o it.tid it.seq) it.tid <;> exact ih _ _ _

theorem ff_revert (t : Nat) : ∀ (wal : List RecItem) (σ : PageState)
    (o : List (Nat × Nat)) (r : List Nat),
    (∀ it ∈ wal, it.tid = t ∧ isWriteItem it = true) →
    (wal.foldl ffStep (σ, o, r)).2.2 = r := by
  intro wal
  induction wal with
  | nil => intro σ o r _; rfl
  | cons it rest ih =>
    intro σ o r hall
    rw [List.foldl_cons]
    cases hd : it.data with
    | write pid s b a =>
      simp only [ffStep, hd]
      exact ih _ _ _ (fun x hx => hall x (List.mem_cons_of_mem it hx))
    | commit =>
      have := (hall it (List.mem_cons_self it rest)).2
      simp [isWriteItem, hd] at this
    | cancel =>
      have := (hall it (List.mem_cons_self it rest)).2
      simp [isWriteItem, hd] at this

theorem insertT_single (o : List (Nat × Nat)) (t v : Nat)
    (ho : o = [] ∨ ∃ x, o = [(t, x)]) :
    insertT o t v = [(t, v)] := by
  rcases ho with h | ⟨x, h⟩ <;> subst h
  · rfl
  · simp [insertT, removeT]

theorem ff_opens (t : Nat) : ∀ (wal : List RecItem) (σ : PageState)
    (o : List (Nat × Nat)) (r : List Nat) (itL : RecItem),
    (∀ it ∈ wal, it.tid = t ∧ isWriteItem it = true) →
    wal.getLast? = some itL →
    (o = [] ∨ ∃ x, o = [(t, x)]) →
    (wal.foldl ffStep (σ, o, r)).2.1 = [(t, itL.seq)] := by
  intro wal
  induction wal with
  | nil => intro σ o r itL _ hL; exact absurd hL (by simp)
  | cons it rest ih =>
    intro σ o r itL hall hL ho
    have hit := hall it (List.mem_cons_self it rest)
    rw [List.foldl_cons]
    cases hd : it.data with
    | write pid s b a =>
      have hti : it.tid = t := hit.1
      have hstep : ffStep (σ, o, r) it =
          (apply_write σ pid s a, insertT o it.tid it.seq, r) := by
        simp only [ffStep, hd]
      rw [hstep, hti, insertT_single o t it.seq ho]
      cases rest with
      | nil =>
        have : itL = it := by
          rw [List.getLast?_singleton] at hL
          exact (Option.some_injective _ hL).symm
        subst this
        rfl
      | cons b2 bs =>
        have hrest : (b2 :: bs : List RecItem) ≠ [] := by simp
        rw [getLast?_cons_ne hrest] at hL
        exact ih _ _ _ itL
          (fun x hx => hall x (List.mem_cons_of_mem it hx)) hL
          (Or.inr ⟨it.seq, rfl⟩)
    | commit =>
      have := hit.2
      simp [isWriteItem, hd] at this
    | cancel =>
      have := hit.2
      simp [isWriteItem, hd] at this

theorem seq_le_getLast : ∀ (wal : List RecItem) (itL : RecItem),
    wal.Pairwise (fun x y => x.seq < y.seq) →
    wal.getLast? = some itL →
    ∀ it ∈ wal, it.seq ≤ itL.seq := by
  intro wal
  induction wal with
  | nil => intro itL _ hL; exact absurd hL (by simp)
  | cons x rest ih =>
    intro itL hmono hL it hit
    cases rest with
    | nil =>
      rw [List.getLast?_singleton] at hL
      have hx : itL = x := (Option.some_injective _ hL).symm
      subst hx
      rcases List.mem_singleton.mp hit with h
      rw [h]
    | cons b2 bs =>
      have hrest : (b2 :: bs : List RecItem) ≠ [] := by simp
      rw [getLast?_cons_ne hrest] at hL
      have hmem : itL ∈ b2 :: bs :=
        List.mem_of_mem_getLast? (by rw [hL]; rfl)
      rcases List.mem_cons.mp hit with h | h
      · subst h
        exact Nat.le_of_lt ((List.pairwise_cons.mp hmono).1 itL hmem)
      · exact ih itL (List.pairwise_cons.mp hmono).2 hL it h

theorem filter_seq_eq_getLast : ∀ (wal : List RecItem) (itL : RecItem),
    wal.Pairwise (fun x y => x.seq < y.seq) →
    wal.getLast? = some itL →
    wal.filter (fun it => it.seq = itL.seq) = [itL] := by
  intro wal
  induction wal with
  | nil => intro itL _ hL; exact absurd hL (by simp)
  | cons x rest ih =>
    intro itL hmono hL
    cases rest with
    | nil =>
      rw [List.getLast?_singleton] at hL
      have hx : itL = x := (Option.some_injective _ hL).symm
      subst hx
      simp
    | cons b2 bs =>
      have hrest : (b2 :: bs : List RecItem) ≠ [] := by simp
      rw [getLast?_cons_ne hrest] at hL
      have hmem : itL ∈ b2 :: bs :=
        List.mem_of_mem_getLast? (by rw [hL]; rfl)
      have hx : x.seq < itL.seq := (List.pairwise_cons.mp hmono).1 itL hmem
      rw [List.filter_cons]
      have : ¬ (decide (x.seq = itL.seq) = true) := by
        simp [Nat.ne_of_lt hx]
      rw [if_neg this]
      exact ih itL (List.pairwise_cons.mp hmono).2 hL

theorem retrace_full (wal : List RecItem) (t : Nat) (itL : RecItem)
    (hall : ∀ it ∈ wal, it.tid = t ∧ isWriteItem it = true)
    (hmono : wal.Pairwise (fun x y => x.seq < y.seq))
    (hL : wal.getLast? = some itL) :
    retrace_transaction wal itL.seq = wal.reverse := by
  unfold retrace_transaction
  rw [filter_seq_eq_getLast wal itL hmono hL]
  simp only [List.head?_cons]
  have hmemL : itL ∈ wal := List.mem_of_mem_getLast? (by rw [hL]; rfl)
  have hfull : wal.filter (fun it =>
      it.tid = itL.tid ∧ it.seq ≤ itL.seq ∧ isWriteItem it = true) = wal := by
    rw [List.filter_eq_self]
    intro it hit
    have h1 := hall it hit
    have h2 := seq_le_getLast wal itL hmono hL it hit
    have h3 := (hall itL hmemL).1
    simp [h1.1, h1.2, h2, h3]
  rw [hfull]

theorem recover_writes_form (wal : List RecItem) (t : Nat)
    (σc : PageState) (itL : RecItem)
    (hall : ∀ it ∈ wal, it.tid = t ∧ isWriteItem it = true)
    (hmono : wal.Pairwise (fun x y => x.seq < y.seq))
    (hL : wal.getLast? = some itL) :
    recover wal σc = wal.reverse.foldl undoStep (wal.foldl redoStep σc) := by
  unfold recover fast_forward
  dsimp only
  rw [ff_sigma wal σc [] [], ff_revert t wal σc [] [] hall,
    ff_opens t wal σc [] [] itL hall hL (Or.inl rfl)]
  simp only [List.foldl_nil, List.foldl_cons]
  rw [revert_from, retrace_full wal t itL hall hmono hL]

/-- An application of bytes at a page range: the common shape of redo
(after image) and undo (before image) steps. -/
def applyApp (σ : PageState) (a : PageId × Nat × List Nat) : PageState :=
  apply_write σ a.1 a.2.1 a.2.2

/-- The after-image application of a Write item (junk identity application
for non-writes, which the folds never hit). -/
def appOfAfter (it : RecItem) : PageId × Nat × List Nat :=
  match it.data with
  | .write pid s _ a => (pid, s, a)
  | _ => ((0, 0), 0, [])

/-- The before-image application of a Write item. -/
def appOfBefore (it : RecItem) : PageId × Nat × List Nat :=
  match it.data with
  | .write pid s b _ => (pid, s, b)
  | _ => ((0, 0), 0, [])

theorem apply_write_empty (σ : PageState) (pid : PageId) :
    apply_write σ pid 0 [] = σ := by
  funext p
  by_cases hp : p = pid
  · subst hp
    simp [apply_write, overwriteAt]
  · simp [apply_write, hp]

theorem foldl_redo_map : ∀ (wal : List RecItem) (σ : PageState),
    wal.foldl redoStep σ = (wal.map appOfAfter).foldl applyApp σ := by
  intro wal
  induction wal with
  | nil => intro σ; rfl
  | cons it rest ih =>
    intro σ
    rw [List.map_cons, List.foldl_cons, List.foldl_cons, ← ih]
    congr 1
    cases hd : it.data with
    | write pid s b a => simp [redoStep, appOfAfter, applyApp, hd]
    | commit => simp [redoStep, appOfAfter, applyApp, hd, apply_write_empty]
    | cancel => simp [redoStep, appOfAfter, applyApp, hd, apply_write_empty]

theorem foldl_undo_map : ∀ (wal : List RecItem) (σ : PageState),
    wal.foldl undoStep σ = (wal.map appOfBefore).foldl applyApp σ := by
  intro wal
  induction wal with
  | nil => intro σ; rfl
  | cons it rest ih =>
    intro σ
    rw [List.map_cons, List.foldl_cons, List.foldl_cons, ← ih]
    congr 1
    cases hd : it.data with
    | write pid s b a => simp [undoStep, appOfBefore, applyApp, hd]
    | commit => simp [undoStep, appOfBefore, applyApp, hd, apply_write_empty]
    | cancel => simp [undoStep, appOfBefore, applyApp, hd, apply_write_empty]

theorem foldl_applyApp_last (pid : PageId) (s l : Nat) :
    ∀ (apps : List (PageId × Nat × List Nat)) (σ : PageState),
    (∀ a ∈ apps, a.1 = pid → a.2.1 + a.2.2.length ≤ (σ pid).length) →
    (∀ a ∈ apps, a.1 = pid →
      (a.2.1 = s ∧ a.2.2.length = l) ∨
      (a.2.1 + a.2.2.length ≤ s ∨ s + l ≤ a.2.1)) →
    readRange (apps.foldl applyApp σ) pid s l =
      ((apps.filter (fun a =>
        a.1 = pid ∧ a.2.1 = s ∧ a.2.2.length = l)).getLast?.map
        (fun a => a.2.2)).getD (readRange σ pid s l) := by
  intro apps
  induction apps with
  | nil => intro σ _ _; simp
  | cons a rest ih =>
    intro σ hfits hsep
    have hfa : a.1 = pid → a.2.1 + a.2.2.length ≤ (σ pid).length :=
      hfits a (List.mem_cons_self a rest)
    have hlen' : ((applyApp σ a) pid).length = (σ pid).length := by
      unfold applyApp
      exact apply_write_page_length σ a.1 a.2.1 a.2.2 pid
        (fun hp => hfa hp.symm)
    rw [List.foldl_cons,
      ih (applyApp σ a)
        (fun b hb hbp => by
          rw [hlen']
          exact hfits b (List.mem_cons_of_mem a hb) hbp)
        (fun b hb => hsep b (List.mem_cons_of_mem a hb)),
      List.filter_cons]
    by_cases hma : a.1 = pid ∧ a.2.1 = s ∧ a.2.2.length = l
    · rw [if_pos (by simpa using hma)]
      cases hLf : (rest.filter (fun a =>
          a.1 = pid ∧ a.2.1 = s ∧ a.2.2.length = l)).getLast? with
      | some b =>
        rw [List.getLast?_cons, hLf]
        rfl
      | none =>
        obtain ⟨hp, hs, hl⟩ := hma
        have hfit2 : s + a.2.2.length ≤ (σ pid).length := by
          rw [← hs]
          exact hfa hp
        have hexact : readRange (applyApp σ a) pid s l = a.2.2 := by
          have he := readRange_apply_write_exact σ pid s a.2.2 hfit2
          rw [hl] at he
          unfold applyApp
          rw [hp, hs]
          exact he
        have hfe : rest.filter (fun a =>
            a.1 = pid ∧ a.2.1 = s ∧ a.2.2.length = l) = [] :=
          List.getLast?_eq_none_iff.mp hLf
        rw [hfe, List.getLast?_singleton]
        simp only [Option.map_none', Option.getD_none, Option.map_some',
          Option.getD_some]
        exact hexact
    · rw [if_neg (by simpa using hma)]
      cases hLf : (rest.filter (fun a =>
          a.1 = pid ∧ a.2.1 = s ∧ a.2.2.length = l)).getLast? with
      | some b => simp [hLf]
      | none =>
        simp only [hLf, Option.map_none', Option.getD_none]
        by_cases hp : a.1 = pid
        · rcases hsep a (List.mem_cons_self a rest) hp with hex | hdis
          · exact absurd ⟨hp, hex.1, hex.2⟩ hma
          · unfold applyApp
            rw [hp]
            exact readRange_apply_write_disjoint σ pid a.2.1 a.2.2 s l
              (hfa hp) hdis
        · unfold applyApp
          exact readRange_apply_write_other σ pid a.1 a.2.1 a.2.2 s l hp

/-- The page range a Write item targets: page id, start and length (of
its after image); `none` for Commit and Cancel. -/
def rangeOf (it : RecItem) : Option (PageId × Nat × Nat) :=
  match it.data with
  | .write pid s _ a => some (pid, s, a.length)
  | _ => none

/-- The before image carried by a Write item. -/
def beforeOf (it : RecItem) : List Nat :=
  match it.data with
  | .write _ _ b _ => b
  | _ => []

theorem isWrite_exists {x : RecItem} (h : isWriteItem x = true) :
    ∃ px sx bx ax, x.data = RecData.write px sx bx ax := by
  cases hd : x.data with
  | write px sx bx ax => exact ⟨px, sx, bx, ax, rfl⟩
  | commit => simp [isWriteItem, hd] at h
  | cancel => simp [isWriteItem, hd] at h

/-- C2. For a WAL holding only Write records of a single transaction `t`
(no Commit or Cancel of `t`), with strictly increasing seqs, in-page
ranges, before images as long as their after images and pairwise
equal-or-disjoint ranges: after `RecoveryManager::recover()` every touched
page range holds the before image of the earliest Write of `t` on that
range (the pre-images having been re-applied in reverse order from the
last seq of `t`). -/
theorem c2_recover_restores_preimages (wal : List RecItem) (t : Nat)
    (σc : PageState) (it : RecItem) (pid : PageId) (s : Nat)
    (bI aI : List Nat)
    (hall : ∀ x ∈ wal, x.tid = t ∧ isWriteItem x = true)
    (hfits : ∀ x ∈ wal, ∀ px sx bx ax, x.data = RecData.write px sx bx ax →
      bx.length = ax.length ∧ sx + ax.length ≤ (σc px).length)
    (hmono : wal.Pairwise (fun x y => x.seq < y.seq))
    (hsep : ∀ x ∈ wal, ∀ y ∈ wal, ∀ px sx bx ax py sy by2 ay,
      x.data = RecData.write px sx bx ax →
      y.data = RecData.write py sy by2 ay → px = py →
      (sx = sy ∧ ax.length = ay.length) ∨
      (sx + ax.length ≤ sy ∨ sy + ay.length ≤ sx))
    (hmem : it ∈ wal) (hd : it.data = RecData.write pid s bI aI) :
    ∃ it0 ∈ wal,
      (wal.filter (fun x =>
        rangeOf x = some (pid, s, aI.length))).head? = some it0 ∧
      readRange (recover wal σc) pid s aI.length = beforeOf it0 := by
  have hne : wal ≠ [] := List.ne_nil_of_mem hmem
  obtain ⟨itL, hL⟩ : ∃ itL, wal.getLast? = some itL := by
    cases hget : wal.getLast? with
    | none => exact absurd (List.getLast?_eq_none_iff.mp hget) hne
    | some itL => exact ⟨itL, rfl⟩
  rw [recover_writes_form wal t σc itL hall hmono hL, foldl_redo_map,
    foldl_undo_map, ← List.foldl_append]
  have hfits2 : ∀ ap ∈ wal.map appOfAfter ++ wal.reverse.map appOfBefore,
      ap.1 = pid → ap.2.1 + ap.2.2.length ≤ (σc pid).length := by
    intro ap hap hp
    rcases List.mem_append.mp hap with hA | hB
    · obtain ⟨x, hx, hfx⟩ := List.mem_map.mp hA
      obtain ⟨px, sx, bx, ax, hdx⟩ := isWrite_exists (hall x hx).2
      have : ap = (px, sx, ax) := by rw [← hfx]; simp [appOfAfter, hdx]
      rw [this] at hp ⊢
      simp only at hp ⊢
      rw [← hp]
      exact (hfits x hx px sx bx ax hdx).2
    · obtain ⟨x, hx, hfx⟩ := List.mem_map.mp hB
      rw [List.mem_reverse] at hx
      obtain ⟨px, sx, bx, ax, hdx⟩ := isWrite_exists (hall x hx).2
      have : ap = (px, sx, bx) := by rw [← hfx]; simp [appOfBefore, hdx]
      rw [this] at hp ⊢
      simp only at hp ⊢
      rw [← hp, (hfits x hx px sx bx ax hdx).1]
      exact (hfits x hx px sx bx ax hdx).2
  have hsep2 : ∀ ap ∈ wal.map appOfAfter ++ wal.reverse.map appOfBefore,
      ap.1 = pid →
      (ap.2.1 = s ∧ ap.2.2.length = aI.length) ∨
      (ap.2.1 + ap.2.2.length ≤ s ∨ s + aI.length ≤ ap.2.1) := by
    intro ap hap hp
    rcases List.mem_append.mp hap with hA | hB
    · obtain ⟨x, hx, hfx⟩ := List.mem_map.mp hA
      obtain ⟨px, sx, bx, ax, hdx⟩ := isWrite_exists (hall x hx).2
      have hap2 : ap = (px, sx, ax) := by rw [← hfx]; simp [appOfAfter, hdx]
      rw [hap2] at hp ⊢
      simp only at hp ⊢
      rcases hsep it hmem x hx pid s bI aI px sx bx ax hd hdx hp.symm with
        ⟨h1, h2⟩ | h
      · exact Or.inl ⟨h1.symm, h2.symm⟩
      · omega
    · obtain ⟨x, hx, hfx⟩ := List.mem_map.mp hB
      rw [List.mem_reverse] at hx
      obtain ⟨px, sx, bx, ax, hdx⟩ := isWrite_exists (hall x hx).2
      have hap2 : ap = (px, sx, bx) := by rw [← hfx]; simp [appOfBefore, hdx]
      have hbl : bx.length = ax.length := (hfits x hx px sx bx ax hdx).1
      rw [hap2] at hp ⊢
      simp only at hp ⊢
      rw [hbl]
      rcases hsep it hmem x hx pid s bI aI px sx bx ax hd hdx hp.symm with
        ⟨h1, h2⟩ | h
      · exact Or.inl ⟨h1.symm, h2.symm⟩
      · omega
  rw [foldl_applyApp_last pid s aI.length _ σc hfits2 hsep2,
    List.filter_append, List.filter_map, List.filter_map,
    List.filter_reverse]
  have hcongr : wal.filter ((fun ap : PageId × Nat × List Nat =>
      decide (ap.1 = pid ∧ ap.2.1 = s ∧ ap.2.2.length = aI.length)) ∘
        appOfBefore) =
      wal.filter (fun x => rangeOf x = some (pid, s, aI.length)) := by
    apply List.filter_congr
    intro x hx
    obtain ⟨px, sx, bx, ax, hdx⟩ := isWrite_exists (hall x hx).2
    have hbl : bx.length = ax.length := (hfits x hx px sx bx ax hdx).1
    simp only [Function.comp_apply, appOfBefore, hdx, rangeOf]
    rw [decide_eq_decide]
    simp only [Option.some.injEq, Prod.mk.injEq]
    constructor
    · rintro ⟨h1, h2, h3⟩
      exact ⟨h1, h2, by rw [← hbl]; exact h3⟩
    · rintro ⟨h1, h2, h3⟩
      exact ⟨h1, h2, by rw [hbl]; exact h3⟩
  rw [hcongr]
  have hitq : it ∈ wal.filter (fun x =>
      rangeOf x = some (pid, s, aI.length)) := by
    rw [List.mem_filter]
    exact ⟨hmem, by simp [rangeOf, hd]⟩
  have hqne : wal.filter (fun x =>
      rangeOf x = some (pid, s, aI.length)) ≠ [] :=
    List.ne_nil_of_mem hitq
  obtain ⟨it0, hq0⟩ : ∃ it0, (wal.filter (fun x =>
      rangeOf x = some (pid, s, aI.length))).head? = some it0 := by
    cases hget : (wal.filter (fun x =>
        rangeOf x = some (pid, s, aI.length))).head? with
    | none => exact absurd (List.head?_eq_none_iff.mp hget) hqne
    | some y => exact ⟨y, rfl⟩
  have hBne : ((wal.filter (fun x =>
      rangeOf x = some (pid, s, aI.length))).reverse).map appOfBefore
      ≠ [] := by
    simp only [ne_eq, List.map_eq_nil_iff, List.reverse_eq_nil_iff]
    exact hqne
  rw [List.getLast?_append_of_ne_nil _ hBne, List.getLast?_map,
    List.getLast?_reverse, hq0]
  have hmem0 : it0 ∈ wal :=
    (List.mem_filter.mp (List.mem_of_mem_head? (by rw [hq0]; rfl))).1
  obtain ⟨p0, s0, b0, a0, hd0⟩ := isWrite_exists (hall it0 hmem0).2
  refine ⟨it0, hmem0, rfl, ?_⟩
  simp [appOfBefore, beforeOf, hd0]

/-- The single uncommitted Write of the C2 witness: transaction 7 wrote
`[99, 99]` over `[0, 0]` on page `(0, 5)` and then crashed. -/
def c2Item : RecItem := ⟨7, 1, .write (0, 5) 0 [0, 0] [99, 99]⟩

/-- The injected WAL: only the Write, no Commit and no Cancel. -/
def c2Wal : List RecItem := [c2Item]

/-- The cache state at startup: page `(0, 5)` still holds the applied
after image. -/
def c2Crash : PageState := fun _ => [99, 99]

/-- Witness for C2: recovery on the injected WAL restores page `(0, 5)`
to the before image `[0, 0]` of the earliest (only) Write of tid 7. -/
theorem c2_recover_restores_preimages_witness :
    readRange (recover c2Wal c2Crash) (0, 5) 0 2 = [0, 0] := by
  obtain ⟨it0, hm0, hq, hr⟩ :=
    c2_recover_restores_preimages c2Wal 7 c2Crash c2Item (0, 5) 0
      [0, 0] [99, 99]
      (by decide)
      (by
        intro x hx px sx bx ax hdx
        simp only [c2Wal, List.mem_singleton] at hx
        subst hx
        simp only [c2Item, RecData.write.injEq] at hdx
        obtain ⟨h1, h2, h3, h4⟩ := hdx
        subst h1
        subst h2
        subst h3
        subst h4
        exact ⟨by decide, by decide⟩)
      (by simp [c2Wal])
      (by
        intro x hx y hy px sx bx ax py sy by2 ay hdx hdy hpp
        simp only [c2Wal, List.mem_singleton] at hx hy
        subst hx
        subst hy
        simp only [c2Item, RecData.write.injEq] at hdx hdy
        obtain ⟨h1, h2, h3, h4⟩ := hdx
        obtain ⟨h5, h6, h7, h8⟩ := hdy
        subst h1; subst h2; subst h3; subst h4
        subst h5; subst h6; subst h7; subst h8
        exact Or.inl ⟨rfl, rfl⟩)
      (by simp [c2Wal])
      rfl
  have hX : (c2Wal.filter (fun x =>
      rangeOf x = some ((0, 5), 0, ([99, 99] : List Nat).length))).head?
      = some c2Item := by decide
  rw [hX] at hq
  have hit0 : c2Item = it0 := Option.some.inj hq
  rw [← hit0] at hr
  have hlen : ([99, 99] : List Nat).length = 2 := rfl
  rw [hlen] at hr
  rw [hr]
  decide

/-- First uncommitted transaction of the C2 counterexample: tid 1 wrote
`[9, 9]` over `[3, 3]` on page `(0, 5)`. -/
def c2cItem1 : RecItem := ⟨1, 1, .write (0, 5) 0 [3, 3] [9, 9]⟩

/-- Second uncommitted transaction: tid 2 then wrote `[7, 7]` over
`[9, 9]` on the same range of the same page. -/
def c2cItem2 : RecItem := ⟨2, 2, .write (0, 5) 0 [9, 9] [7, 7]⟩

/-- A WAL with Writes of tid 1 and tid 2 interleaved on one range and no
Commit or Cancel record of either tid. -/
def c2cWal : List RecItem := [c2cItem1, c2cItem2]

/-- The cache state at startup: both after images were applied before the
crash, so page `(0, 5)` holds `[7, 7]`. -/
def c2cCrash : PageState := fun _ => [7, 7]

/-- C2 counterexample. The claim quantifies over every WAL containing
Writes of some tid with neither Commit(tid) nor Cancel(tid). On `c2cWal`
tid 1 satisfies that condition (both records are Writes, so the WAL holds
no Commit or Cancel at all), yet after `recover()` the touched range of
page `(0, 5)` holds `[9, 9]` — the before image of tid 2, reverted last —
and not `[3, 3]`, the before image of the earliest (only) Write of tid 1:
the open transactions are reverted one after another, and whichever is
reverted last wins the range. -/
theorem c2_multi_transaction_counterexample :
    c2cWal = [c2cItem1, c2cItem2] ∧
    isWriteItem c2cItem1 = true ∧ isWriteItem c2cItem2 = true ∧
    c2cItem1.tid = 1 ∧ c2cItem2.tid = 2 ∧
    beforeOf c2cItem1 = [3, 3] ∧
    readRange (recover c2cWal c2cCrash) (0, 5) 0 2 = [9, 9] ∧
    readRange (recover c2cWal c2cCrash) (0, 5) 0 2 ≠ beforeOf c2cItem1 := by
  refine ⟨rfl, by decide, by decide, by decide, by decide, by decide,
    by decide, by decide⟩
